import Mathlib

/-!
# Verification of the planar polygon engine (`planar/polygon.go`)

Shallow embedding of the polygon geometry engine.  Modelling choices:

* Go `float64` values are embedded as exact rationals (`ℚ`).  All arithmetic
  in the source is `+ - * /` and comparisons, which `ℚ` models exactly.
* `math.Nextafter(x, +Inf)` (the tie-breaking nudge in `rayIntersect`) is
  modelled as adding a positive infinitesimal to `x`: after a nudge the
  coordinate compares strictly greater than `x` and strictly less than every
  rational above `x`, and a slope whose denominator is the infinitesimal is
  `0` when the numerator is `0` and `±∞` otherwise.  The nudged coordinate is
  threaded through the tail of the computation as a `Bool` flag.
* A Go slice index that is out of range panics; fallible operations therefore
  return `Option`, with `none` marking a panic.
* `ℚ` division by zero yields `0` where IEEE would yield `NaN/±Inf`; no
  theorem below evaluates a division by zero.
-/

abbrev Point := ℚ × ℚ

abbrev LineString := List Point

abbrev Polygon := List LineString

abbrev Rect := Point × Point

/-! ## Ray casting (`rayIntersect`, lines 211-269) -/

/-- `p.1 + ε < a` for infinitesimal `ε ≥ 0`: the nudge never makes a
coordinate reach a strictly larger rational. -/
def xLt (x : ℚ) (_nudged : Bool) (a : ℚ) : Bool :=
  decide (x < a)

/-- `p.1 + ε > a`: once nudged, a coordinate that was equal to `a` is
strictly greater. -/
def xGt (x : ℚ) (nudged : Bool) (a : ℚ) : Bool :=
  if nudged then decide (a ≤ x) else decide (a < x)

/-- The slope comparison at the end of `rayIntersect` (lines 261-268).
`rs = (p.2 - s.2) / (p.1 - s.1)`; when `p` was nudged the denominator is the
infinitesimal `ε` (the nudge only survives to this point when `p.1 = s.1`),
so `rs` is `0` for a zero numerator and `±∞` otherwise. -/
def slopes (p s e : Point) (nudged : Bool) : Bool × Bool :=
  let ds := (e.2 - s.2) / (e.1 - s.1)
  if nudged then
    if p.2 = s.2 then
      if (0 : ℚ) = ds then (false, true) else (decide ((0:ℚ) ≤ ds), false)
    else if p.2 < s.2 then (true, false)
    else (false, false)
  else
    let rs := (p.2 - s.2) / (p.1 - s.1)
    if rs = ds then (false, true) else (decide (rs ≤ ds), false)

/-- Lines 243-268 of `rayIntersect`: everything after the nudging
decisions.  `nudged` records whether `p.1` stands for `p.1 + ε`. -/
def rayTail (p s e : Point) (nudged : Bool) : Bool × Bool :=
  if xLt p.1 nudged s.1 || xGt p.1 nudged e.1 then (false, false)
  else if s.2 > e.2 then
    if p.2 > s.2 then (false, false)
    else if p.2 < e.2 then (true, false)
    else slopes p s e nudged
  else
    if p.2 > e.2 then (false, false)
    else if p.2 < s.2 then (true, false)
    else slopes p s e nudged

/-- Lines 216-268 of `rayIntersect`, after the initial swap ensuring
`s.1 ≤ e.1`.  Returns `(intersects, on)`. -/
def rayIntersectCore (p s e : Point) : Bool × Bool :=
  if p.1 = s.1 then
    if p.2 = s.2 then (false, true)
    else if s.1 = e.1 then
      if s.2 > e.2 ∧ s.2 ≥ p.2 ∧ p.2 ≥ e.2 then (false, true)
      else if e.2 > s.2 ∧ e.2 ≥ p.2 ∧ p.2 ≥ s.2 then (false, true)
      else rayTail p s e true
    else rayTail p s e true
  else if p.1 = e.1 then
    if p.2 = e.2 then (false, true)
    else rayTail p s e true
  else rayTail p s e false

/-- `rayIntersect` (lines 211-269): swap the segment endpoints so that the
start has the smaller x, then run the core. -/
def rayIntersect (p s e : Point) : Bool × Bool :=
  if s.1 > e.1 then rayIntersectCore p e s else rayIntersectCore p s e

/-! ## Ring bound (modelled) and point-in-ring (`lineStringContains`) -/

/-- Modelled from the spec: `LineString.Bound` is defined outside `src/`;
§3 of the spec describes the bound as the min corner and max corner of the
ring's points, computed in a single pass.  Defined for nonempty rings. -/
def ringBound : Point → List Point → Rect
  | a, [] => (a, a)
  | a, b :: t =>
    let r := ringBound b t
    ((min a.1 r.1.1, min a.2 r.1.2), (max a.1 r.2.1, max a.2 r.2.2))

/-- Modelled from the spec: `Rect.Contains` (outside `src/`), inclusive
containment in the axis-aligned rectangle. -/
def rectContains (r : Rect) (p : Point) : Bool :=
  decide (r.1.1 ≤ p.1 ∧ p.1 ≤ r.2.1 ∧ r.1.2 ≤ p.2 ∧ p.2 ≤ r.2.2)

/-- The crossing-parity loop of `lineStringContains` (lines 196-207):
one `rayIntersect` per consecutive pair, short-circuiting to `true` on a
boundary hit, otherwise toggling the parity accumulator. -/
def containsLoop (pt : Point) (c : Bool) : List Point → Bool
  | a :: rest@(b :: _) =>
    let ib := rayIntersect pt a b
    if ib.2 then true
    else containsLoop pt (if ib.1 then !c else c) rest
  | [] => c
  | [_] => c

/-- `lineStringContains` (lines 186-208).  An empty ring reads `ls[0]`
(and its bound is built from no points): modelled as a fault. -/
def lineStringContains (ls : LineString) (point : Point) : Option Bool :=
  match ls with
  | [] => none
  | a :: t =>
    if !rectContains (ringBound a t) point then some false
    else
      let ci := rayIntersect point a ((a :: t).getLast (List.cons_ne_nil a t))
      if ci.2 then some true
      else some (containsLoop point ci.1 (a :: t))

/-! ## Polygon containment (`Polygon.Contains`, lines 101-114) -/

/-- The hole loop of `Polygon.Contains` (lines 107-111): the first hole
that contains the point forces the result `false`. -/
def containsHoleLoop (pt : Point) : List LineString → Option Bool
  | [] => some true
  | h :: t =>
    (lineStringContains h pt).bind fun b =>
      if b then some false else containsHoleLoop pt t

/-- `Polygon.Contains` (lines 101-114).  A zero-ring polygon reads `p[0]`:
index out of range, modelled as `none`. -/
def Polygon.Contains (p : Polygon) (point : Point) : Option Bool :=
  match p with
  | [] => none
  | r0 :: holes =>
    (lineStringContains r0 point).bind fun c =>
      if !c then some false else containsHoleLoop point holes

/-! ## Ring area (`lineStringArea`, lines 166-184) -/

/-- The loop of `lineStringArea` (lines 172-174): for `i = 1 .. len-2`,
`area += ls[i].x * (ls[i+1].y - ls[i-1].y)`, i.e. one term per consecutive
triple of the ring. -/
def shoeSum : List Point → ℚ
  | p0 :: rest@(p1 :: p2 :: _) => p1.1 * (p2.2 - p0.2) + shoeSum rest
  | [] => 0
  | [_] => 0
  | [_, _] => 0

/-- The last two points of a list (used for `ls[last-1]` and `ls[last]`);
junk on lists with fewer than two points (never used there). -/
def lastTwo : List Point → Point × Point
  | [x, y] => (x, y)
  | _ :: rest@(_ :: _ :: _) => lastTwo rest
  | [] => ((0, 0), (0, 0))
  | [_] => ((0, 0), (0, 0))

/-- The signed double shoelace sum of `lineStringArea` before halving and
taking the absolute value, for rings of at least two points: the loop sum
plus the two wrap-around terms of lines 178 and 181. -/
def ringSigned (ls : List Point) : ℚ :=
  match ls with
  | a :: b :: t =>
    let ml := lastTwo (a :: b :: t)
    shoeSum (a :: b :: t) + ml.2.1 * (a.2 - ml.1.2) + a.1 * (b.2 - ml.2.2)
  | [] => 0
  | [_] => 0

/-- `lineStringArea` (lines 166-184).  A zero-point ring returns `0`
(line 167); a one-point ring computes `last := 0` and then reads
`ls[last-1]`, i.e. index `-1`: out of range, modelled as `none`; otherwise
the result is `|sum| / 2`. -/
def lineStringArea (ls : LineString) : Option ℚ :=
  match ls with
  | [] => some 0
  | [_] => none
  | a :: b :: t => some (|ringSigned (a :: b :: t)| / 2)

/-! ## Polygon area (`Polygon.Area`, lines 118-127) -/

/-- The hole loop of `Polygon.Area` (lines 121-124): subtract each hole's
ring area from the accumulator. -/
def areaHoleLoop (acc : ℚ) : List LineString → Option ℚ
  | [] => some acc
  | r :: t => (lineStringArea r).bind fun a => areaHoleLoop (acc - a) t

/-- `Polygon.Area` (lines 118-127).  A zero-ring polygon reads `p[0]`:
out of range, modelled as `none`. -/
def Polygon.Area (p : Polygon) : Option ℚ :=
  match p with
  | [] => none
  | r0 :: holes => (lineStringArea r0).bind fun a => areaHoleLoop a holes

/-! ## Ring centroid (`LineString.ringCentroid`, lines 68-97) -/

/-- The loop of `ringCentroid` (lines 77-84): for `i = 1 .. len-2`
accumulate the cross term of the pair `(ring[i], ring[i+1])` (shifted by
the offset) together with the two first-moment sums.  Returns
`(area accumulator, moment x, moment y)`. -/
def centLoop (ox oy : ℚ) : List Point → ℚ × ℚ × ℚ
  | a :: rest@(b :: _) =>
    let s := centLoop ox oy rest
    let ai := (a.1 - ox) * (b.2 - oy) - (b.1 - ox) * (a.2 - oy)
    (s.1 + ai, s.2.1 + (a.1 + b.1 - 2 * ox) * ai, s.2.2 + (a.2 + b.2 - 2 * oy) * ai)
  | [] => (0, 0, 0)
  | [_] => (0, 0, 0)

/-- `LineString.ringCentroid` (lines 68-97).  An empty ring reads
`ring[0]` for the offset: out of range, modelled as `none`.  The loop runs
over the pairs `(ring[i], ring[i+1])` for `i = 1 .. len-2`, i.e. the
consecutive pairs of the tail.  (`ℚ` division by zero returns `0` where Go
would produce a non-finite float; no theorem exercises that case.) -/
def LineString.ringCentroid (ls : LineString) : Option (Point × ℚ) :=
  match ls with
  | [] => none
  | r0 :: t =>
    let acc := centLoop r0.1 r0.2 t
    let area := acc.1 / 2
    some ((acc.2.1 / (6 * area) + r0.1, acc.2.2 / (6 * area) + r0.2), area)

/-! ## Polygon centroid (`Polygon.CentroidArea`, lines 48-66) -/

/-- The hole loop of `CentroidArea` (lines 53-60): accumulate
`(Σ holeArea, Σ holeCentroid.x * holeArea, Σ holeCentroid.y * holeArea)`. -/
def centroidHoleLoop : List LineString → Option (ℚ × ℚ × ℚ)
  | [] => some (0, 0, 0)
  | r :: t =>
    (LineString.ringCentroid r).bind fun ca =>
      (centroidHoleLoop t).bind fun s =>
        some (s.1 + ca.2, s.2.1 + ca.1.1 * ca.2, s.2.2 + ca.1.2 * ca.2)

/-- `Polygon.CentroidArea` (lines 48-66).  Note line 62-63 multiplies the
*already area-weighted* hole-centroid sums by the *total* hole area again.
A zero-ring polygon reads `p[0]`: modelled as `none`. -/
def Polygon.CentroidArea (p : Polygon) : Option (Point × ℚ) :=
  match p with
  | [] => none
  | r0 :: holes =>
    (LineString.ringCentroid r0).bind fun ca =>
      (centroidHoleLoop holes).bind fun h =>
        let area := ca.2
        let cx := (area * ca.1.1 - h.1 * h.2.1) / (area - h.1)
        let cy := (area * ca.1.2 - h.1 * h.2.2) / (area - h.1)
        some ((cx, cy), area - h.1)

/-! ## Distance (`Polygon.DistanceFrom`, lines 21-37) -/

/-- Modelled from the spec: the squared distance from a point to one closed
segment, by clamping the orthogonal-projection parameter to `[0, 1]`.  The
spec (§4.5) requires `LineString.DistanceFrom` (defined outside `src/`) to
return the minimum distance from the point to the ring's edges; the claims
only compare distances with `0`, and the squared distance is `0` exactly
when the Euclidean distance is. -/
def segDistSq (s e p : Point) : ℚ :=
  let dx := e.1 - s.1
  let dy := e.2 - s.2
  let len2 := dx * dx + dy * dy
  if len2 = 0 then (p.1 - s.1) ^ 2 + (p.2 - s.2) ^ 2
  else
    let t := max 0 (min 1 (((p.1 - s.1) * dx + (p.2 - s.2) * dy) / len2))
    (p.1 - (s.1 + t * dx)) ^ 2 + (p.2 - (s.2 + t * dy)) ^ 2

/-- Minimum of `segDistSq` over the consecutive segments of `a :: b :: t`. -/
def segMin (pt : Point) : Point → Point → List Point → ℚ
  | a, b, [] => segDistSq a b pt
  | a, b, c :: t => min (segDistSq a b pt) (segMin pt b c t)

/-- Modelled from the spec: `LineString.DistanceFrom` (defined outside
`src/`), the minimum (squared) distance from the point to the ring's edges;
rings with fewer than two points have no edge and are left undefined. -/
def LineString.DistanceFrom (ls : LineString) (p : Point) : Option ℚ :=
  match ls with
  | a :: b :: t => some (segMin p a b t)
  | _ => none

/-- The hole loop of `Polygon.DistanceFrom` (lines 28-33): the first hole
containing the point supplies the distance. -/
def distHoleLoop (pt : Point) : List LineString → Option ℚ
  | [] => some 0
  | h :: t =>
    (Polygon.Contains [h] pt).bind fun c =>
      if c then LineString.DistanceFrom h pt else distHoleLoop pt t

/-- `Polygon.DistanceFrom` (lines 21-37).  A zero-ring polygon reads
`p[0]`: modelled as `none`. -/
def Polygon.DistanceFrom (p : Polygon) (point : Point) : Option ℚ :=
  match p with
  | [] => none
  | r0 :: holes =>
    (Polygon.Contains [r0] point).bind fun c =>
      if !c then LineString.DistanceFrom r0 point else distHoleLoop point holes

/-! ## WKT (`Polygon.WKT`, lines 136-152) -/

/-- Modelled from the spec: `wktPoints` (defined outside `src/`) renders a
ring as `(x y,x y,...)`; the numeric formatting is modelled with the
rational's string form (no claim inspects it). -/
def wktPoints (ls : LineString) : String :=
  "(" ++ String.intercalate "," (ls.map fun pt => toString pt.1 ++ " " ++ toString pt.2) ++ ")"

/-- `Polygon.WKT` (lines 136-152): `EMPTY` for a zero-ring polygon,
otherwise `POLYGON(` ++ comma-separated rings ++ `)`. -/
def Polygon.WKT (p : Polygon) : String :=
  match p with
  | [] => "EMPTY"
  | r0 :: rest =>
    "POLYGON(" ++ wktPoints r0 ++ String.join (rest.map fun r => "," ++ wktPoints r) ++ ")"

/-! ## Geometric predicates used to state the claims -/

/-- `p` lies exactly on the closed segment from `s` to `e`: collinear and
inside the coordinate box of the endpoints. -/
def onSeg (s e p : Point) : Prop :=
  (p.1 - s.1) * (e.2 - s.2) = (p.2 - s.2) * (e.1 - s.1)
  ∧ min s.1 e.1 ≤ p.1 ∧ p.1 ≤ max s.1 e.1
  ∧ min s.2 e.2 ≤ p.2 ∧ p.2 ≤ max s.2 e.2

instance (s e p : Point) : Decidable (onSeg s e p) := by
  unfold onSeg; infer_instance

/-- `(s, e)` is one of the edges `lineStringContains` tests: a consecutive
pair, or the closing edge from the first point to the last. -/
def IsEdge (ls : LineString) (s e : Point) : Prop :=
  (s, e) ∈ ls.zip ls.tail ∨ (ls.head? = some s ∧ ls.getLast? = some e)

instance (ls : LineString) (s e : Point) : Decidable (IsEdge ls s e) := by
  unfold IsEdge; infer_instance

/-- The point lies on the boundary of the ring: on one of its consecutive
edges. -/
def OnRing (ls : LineString) (pt : Point) : Prop :=
  ∃ s e, (s, e) ∈ ls.zip ls.tail ∧ onSeg s e pt

/-! ## Lemmas: boundary points are detected by the ray cast -/

theorem onSeg_symm {s e p : Point} (h : onSeg s e p) : onSeg e s p := by
  obtain ⟨hc, hx1, hx2, hy1, hy2⟩ := h
  refine ⟨by linear_combination -hc, ?_, ?_, ?_, ?_⟩
  · rwa [min_comm]
  · rwa [max_comm]
  · rwa [min_comm]
  · rwa [max_comm]

theorem rayCore_on {p s e : Point} (hse : s.1 ≤ e.1) (h : onSeg s e p) :
    (rayIntersectCore p s e).2 = true := by
  obtain ⟨hc, hx1, hx2, hy1, hy2⟩ := h
  rw [min_eq_left hse] at hx1
  rw [max_eq_right hse] at hx2
  by_cases hps : p.1 = s.1
  · by_cases hpy : p.2 = s.2
    · simp [rayIntersectCore, hps, hpy]
    · by_cases hv : s.1 = e.1
      · rcases lt_trichotomy s.2 e.2 with hlt | heq | hgt
        · have h2 : e.2 > s.2 ∧ e.2 ≥ p.2 ∧ p.2 ≥ s.2 := by
            rw [max_eq_right hlt.le] at hy2
            rw [min_eq_left hlt.le] at hy1
            exact ⟨hlt, hy2, hy1⟩
          have h1 : ¬(s.2 > e.2 ∧ s.2 ≥ p.2 ∧ p.2 ≥ e.2) := by
            intro hh; exact absurd hlt (not_lt.mpr hh.1.le)
          simp [rayIntersectCore, hps, hpy, hv, h1, h2]
        · exfalso
          apply hpy
          rw [heq, min_self] at hy1
          rw [heq, max_self] at hy2
          linarith
        · have h1 : s.2 > e.2 ∧ s.2 ≥ p.2 ∧ p.2 ≥ e.2 := by
            rw [max_eq_left hgt.le] at hy2
            rw [min_eq_right hgt.le] at hy1
            exact ⟨hgt, hy2, hy1⟩
          simp [rayIntersectCore, hps, hpy, hv, h1]
      · exfalso
        apply hpy
        have he : e.1 - s.1 ≠ 0 := fun h0 => hv (by linarith)
        have : (p.2 - s.2) * (e.1 - s.1) = 0 := by
          rw [← hc, hps]; ring
        rcases mul_eq_zero.mp this with h1 | h1
        · linarith
        · exact absurd h1 he
  · by_cases hpe : p.1 = e.1
    · by_cases hpy : p.2 = e.2
      · rw [rayIntersectCore, if_neg hps, if_pos hpe, if_pos hpy]
      · exfalso
        apply hpy
        have he : e.1 - s.1 ≠ 0 := fun h0 => hps (by linarith [hpe])
        have h2 : (p.2 - s.2) * (e.1 - s.1) = (e.2 - s.2) * (e.1 - s.1) := by
          rw [← hc, hpe]; ring
        have := mul_right_cancel₀ he h2
        linarith
    · have h1 : s.1 < p.1 := lt_of_le_of_ne hx1 (Ne.symm hps)
      have h2 : p.1 < e.1 := lt_of_le_of_ne hx2 hpe
      have hxlt : xLt p.1 false s.1 = false := by
        simp only [xLt, decide_eq_false_iff_not, not_lt]; linarith
      have hxgt : xGt p.1 false e.1 = false := by
        simp only [xGt, if_neg Bool.false_ne_true, decide_eq_false_iff_not, not_lt]
        linarith
      have hrs : (p.2 - s.2) / (p.1 - s.1) = (e.2 - s.2) / (e.1 - s.1) := by
        rw [div_eq_div_iff (by linarith) (by linarith)]
        linear_combination -hc
      have hcore : rayIntersectCore p s e = rayTail p s e false := by
        simp [rayIntersectCore, hps, hpe]
      rw [hcore]
      by_cases hyy : s.2 > e.2
      · rw [min_eq_right hyy.le] at hy1
        rw [max_eq_left hyy.le] at hy2
        have hny1 : ¬(p.2 > s.2) := not_lt.mpr hy2
        have hny2 : ¬(p.2 < e.2) := not_lt.mpr hy1
        simp [rayTail, hxlt, hxgt, hyy, hny1, hny2, slopes, hrs]
      · have hyy' : s.2 ≤ e.2 := not_lt.mp hyy
        rw [min_eq_left hyy'] at hy1
        rw [max_eq_right hyy'] at hy2
        have hny1 : ¬(p.2 > e.2) := not_lt.mpr hy2
        have hny2 : ¬(p.2 < s.2) := not_lt.mpr hy1
        simp [rayTail, hxlt, hxgt, hyy, hny1, hny2, slopes, hrs]

theorem ray_on {p s e : Point} (h : onSeg s e p) : (rayIntersect p s e).2 = true := by
  rw [rayIntersect]
  by_cases hgt : s.1 > e.1
  · rw [if_pos hgt]; exact rayCore_on hgt.le (onSeg_symm h)
  · rw [if_neg hgt]; exact rayCore_on (not_lt.mp hgt) h

theorem containsLoop_on {pt s e : Point} : ∀ {ls : List Point},
    (s, e) ∈ ls.zip ls.tail → onSeg s e pt → ∀ c, containsLoop pt c ls = true := by
  intro ls
  induction ls with
  | nil => intro hmem; simp at hmem
  | cons a t ih =>
    intro hmem hon c
    cases t with
    | nil => simp at hmem
    | cons b t2 =>
      rw [List.tail_cons, List.zip_cons_cons] at hmem
      rw [containsLoop]
      rcases List.mem_cons.mp hmem with hab | hrest
      · have h1 : s = a := congrArg Prod.fst hab
        have h2 : e = b := congrArg Prod.snd hab
        subst h1
        subst h2
        simp [ray_on hon]
      · have hm2 : (s, e) ∈ (b :: t2).zip (b :: t2).tail := by
          rwa [List.tail_cons]
        by_cases hib : (rayIntersect pt a b).2 = true
        · simp [hib]
        · simp only [Bool.not_eq_true] at hib
          simp [hib, ih hm2 hon]

theorem ringBound_le {q : Point} : ∀ (a : Point) (t : List Point), q ∈ a :: t →
    (ringBound a t).1.1 ≤ q.1 ∧ q.1 ≤ (ringBound a t).2.1 ∧
    (ringBound a t).1.2 ≤ q.2 ∧ q.2 ≤ (ringBound a t).2.2 := by
  intro a t
  induction t generalizing a with
  | nil =>
    intro hq
    rcases List.mem_cons.mp hq with h | h
    · subst h; simp [ringBound]
    · simp at h
  | cons b t2 ih =>
    intro hq
    rw [ringBound]
    rcases List.mem_cons.mp hq with h | h
    · subst h
      exact ⟨min_le_left _ _, le_max_left _ _, min_le_left _ _, le_max_left _ _⟩
    · obtain ⟨h1, h2, h3, h4⟩ := ih b h
      exact ⟨le_trans (min_le_right _ _) h1, le_trans h2 (le_max_right _ _),
        le_trans (min_le_right _ _) h3, le_trans h4 (le_max_right _ _)⟩

theorem bound_contains_of_onSeg {a : Point} {t : List Point} {s e pt : Point}
    (hs : s ∈ a :: t) (he : e ∈ a :: t) (hon : onSeg s e pt) :
    rectContains (ringBound a t) pt = true := by
  obtain ⟨-, hx1, hx2, hy1, hy2⟩ := hon
  obtain ⟨hs1, hs2, hs3, hs4⟩ := ringBound_le a t hs
  obtain ⟨he1, he2, he3, he4⟩ := ringBound_le a t he
  rw [rectContains, decide_eq_true_iff]
  exact ⟨le_trans (le_min hs1 he1) hx1, le_trans hx2 (max_le hs2 he2),
    le_trans (le_min hs3 he3) hy1, le_trans hy2 (max_le hs4 he4)⟩

theorem contains_of_onEdge {ls : LineString} {s e pt : Point}
    (hedge : IsEdge ls s e) (hon : onSeg s e pt) :
    lineStringContains ls pt = some true := by
  cases ls with
  | nil =>
    exfalso
    rcases hedge with h | ⟨h, -⟩
    · simp at h
    · simp at h
  | cons a t =>
    have hmem : s ∈ a :: t ∧ e ∈ a :: t := by
      rcases hedge with h | ⟨h1, h2⟩
      · have h' := List.of_mem_zip h
        exact ⟨h'.1, List.mem_of_mem_tail h'.2⟩
      · constructor
        · rw [List.head?_cons, Option.some_inj] at h1
          rw [← h1]; exact List.mem_cons_self a t
        · rw [List.getLast?_eq_getLast _ (List.cons_ne_nil a t), Option.some_inj] at h2
          rw [← h2]; exact List.getLast_mem _
    have hb := bound_contains_of_onSeg hmem.1 hmem.2 hon
    rw [lineStringContains, hb]
    simp only [Bool.not_true, Bool.false_eq_true, if_false]
    by_cases hci : (rayIntersect pt a ((a :: t).getLast (List.cons_ne_nil a t))).2 = true
    · simp [hci]
    · rcases hedge with hpair | ⟨h1, h2⟩
      · simp only [Bool.not_eq_true] at hci
        simp [hci, containsLoop_on hpair hon]
      · exfalso
        apply hci
        rw [List.head?_cons, Option.some_inj] at h1
        rw [List.getLast?_eq_getLast _ (List.cons_ne_nil a t), Option.some_inj] at h2
        rw [← h1, ← h2] at hon
        exact ray_on hon

/-! ## Lemmas: zero distance means a point on an edge -/

theorem segDistSq_nonneg (s e p : Point) : 0 ≤ segDistSq s e p := by
  rw [segDistSq]
  split <;> positivity

theorem segMin_nonneg (pt : Point) : ∀ (a b : Point) (t : List Point), 0 ≤ segMin pt a b t := by
  intro a b t
  induction t generalizing a b with
  | nil => rw [segMin]; exact segDistSq_nonneg _ _ _
  | cons c t2 ih => rw [segMin]; exact le_min (segDistSq_nonneg _ _ _) (ih b c)

theorem onSeg_of_segDistSq_zero {s e p : Point} (h : segDistSq s e p = 0) : onSeg s e p := by
  rw [segDistSq] at h
  by_cases h0 : (e.1 - s.1) * (e.1 - s.1) + (e.2 - s.2) * (e.2 - s.2) = 0
  · rw [if_pos h0] at h
    have he1 : e.1 = s.1 := by nlinarith [sq_nonneg (e.1 - s.1), sq_nonneg (e.2 - s.2)]
    have he2 : e.2 = s.2 := by nlinarith [sq_nonneg (e.1 - s.1), sq_nonneg (e.2 - s.2)]
    have hp1 : p.1 = s.1 := by nlinarith [sq_nonneg (p.1 - s.1), sq_nonneg (p.2 - s.2)]
    have hp2 : p.2 = s.2 := by nlinarith [sq_nonneg (p.1 - s.1), sq_nonneg (p.2 - s.2)]
    refine ⟨by rw [hp1, hp2]; ring, ?_, ?_, ?_, ?_⟩ <;>
      simp [he1, he2, hp1, hp2]
  · rw [if_neg h0] at h
    set t := max 0 (min 1 (((p.1 - s.1) * (e.1 - s.1) + (p.2 - s.2) * (e.2 - s.2)) /
      ((e.1 - s.1) * (e.1 - s.1) + (e.2 - s.2) * (e.2 - s.2)))) with ht
    have ht0 : 0 ≤ t := le_max_left _ _
    have ht1 : t ≤ 1 := max_le (by norm_num) (min_le_left _ _)
    have h' : (p.1 - (s.1 + t * (e.1 - s.1))) ^ 2 + (p.2 - (s.2 + t * (e.2 - s.2))) ^ 2 = 0 := h
    have h1 : p.1 = s.1 + t * (e.1 - s.1) := by
      nlinarith [sq_nonneg (p.1 - (s.1 + t * (e.1 - s.1))), sq_nonneg (p.2 - (s.2 + t * (e.2 - s.2)))]
    have h2 : p.2 = s.2 + t * (e.2 - s.2) := by
      nlinarith [sq_nonneg (p.1 - (s.1 + t * (e.1 - s.1))), sq_nonneg (p.2 - (s.2 + t * (e.2 - s.2)))]
    refine ⟨by rw [h1, h2]; ring, ?_, ?_, ?_, ?_⟩
    · rcases le_total s.1 e.1 with hc | hc
      · rw [min_eq_left hc]; nlinarith
      · rw [min_eq_right hc]; nlinarith
    · rcases le_total s.1 e.1 with hc | hc
      · rw [max_eq_right hc]; nlinarith
      · rw [max_eq_left hc]; nlinarith
    · rcases le_total s.2 e.2 with hc | hc
      · rw [min_eq_left hc]; nlinarith
      · rw [min_eq_right hc]; nlinarith
    · rcases le_total s.2 e.2 with hc | hc
      · rw [max_eq_right hc]; nlinarith
      · rw [max_eq_left hc]; nlinarith

theorem segMin_zero {pt : Point} : ∀ {a b : Point} {t : List Point},
    segMin pt a b t = 0 →
    ∃ s e, (s, e) ∈ (a :: b :: t).zip (b :: t) ∧ segDistSq s e pt = 0 := by
  intro a b t
  induction t generalizing a b with
  | nil =>
    intro h
    rw [segMin] at h
    exact ⟨a, b, by simp, h⟩
  | cons c t2 ih =>
    intro h
    rw [segMin] at h
    rcases le_total (segDistSq a b pt) (segMin pt b c t2) with hle | hle
    · rw [min_eq_left hle] at h
      exact ⟨a, b, by simp, h⟩
    · rw [min_eq_right hle] at h
      obtain ⟨s, e, hm, hz⟩ := ih h
      exact ⟨s, e, by rw [List.zip_cons_cons]; exact List.mem_cons_of_mem _ hm, hz⟩

theorem onRing_of_distance_zero {ls : LineString} {pt : Point}
    (h : LineString.DistanceFrom ls pt = some 0) : OnRing ls pt := by
  match ls with
  | [] => simp [LineString.DistanceFrom] at h
  | [a] => simp [LineString.DistanceFrom] at h
  | a :: b :: t2 =>
    rw [LineString.DistanceFrom, Option.some_inj] at h
    obtain ⟨s, e, hm, hz⟩ := segMin_zero h
    exact ⟨s, e, by rwa [List.tail_cons], onSeg_of_segDistSq_zero hz⟩

/-! ## Lemmas: composition of the polygon-level operations -/

theorem contains_single (r : LineString) (pt : Point) :
    Polygon.Contains [r] pt = lineStringContains r pt := by
  rw [Polygon.Contains]
  cases h : lineStringContains r pt with
  | none => rfl
  | some b => cases b <;> simp [containsHoleLoop]

theorem containsHoleLoop_eq_some {pt : Point} : ∀ {holes : List LineString} {b : Bool},
    containsHoleLoop pt holes = some b →
    (b = true ↔ ∀ h ∈ holes, lineStringContains h pt = some false) := by
  intro holes
  induction holes with
  | nil =>
    intro b hb
    rw [containsHoleLoop, Option.some_inj] at hb
    simp [← hb]
  | cons h t ih =>
    intro b hb
    rw [containsHoleLoop] at hb
    cases hc : lineStringContains h pt with
    | none => rw [hc] at hb; simp at hb
    | some c =>
      rw [hc] at hb
      cases c
      · simp only [Option.some_bind, Bool.false_eq_true, if_false] at hb
        rw [List.forall_mem_cons]
        simp [hc, ih hb]
      · simp only [Option.some_bind, if_true, Option.some_inj] at hb
        subst hb
        simp only [Bool.false_eq_true, false_iff]
        intro hall
        have := hall h (List.mem_cons_self h t)
        rw [hc] at this
        simp at this

theorem distHoleLoop_of_not_contains {pt : Point} : ∀ {holes : List LineString},
    (∀ h ∈ holes, lineStringContains h pt = some false) →
    distHoleLoop pt holes = some 0 := by
  intro holes
  induction holes with
  | nil => intro; rfl
  | cons h t ih =>
    intro hall
    rw [distHoleLoop, contains_single, hall h (List.mem_cons_self h t)]
    simp only [Option.some_bind, Bool.false_eq_true, if_false]
    exact ih fun g hg => hall g (List.mem_cons_of_mem _ hg)

theorem distHoleLoop_zero {pt : Point} : ∀ {holes : List LineString},
    distHoleLoop pt holes = some 0 →
    containsHoleLoop pt holes = some true ∨
      (containsHoleLoop pt holes = some false ∧ ∃ h ∈ holes, OnRing h pt) := by
  intro holes
  induction holes with
  | nil => intro; left; rfl
  | cons h t ih =>
    intro hd
    rw [distHoleLoop, contains_single] at hd
    cases hc : lineStringContains h pt with
    | none => rw [hc] at hd; simp at hd
    | some c =>
      rw [hc] at hd
      cases c
      · simp only [Option.some_bind, Bool.false_eq_true, if_false] at hd
        rcases ih hd with h1 | ⟨h1, g, hg, hOn⟩
        · left
          rw [containsHoleLoop, hc]
          simpa using h1
        · right
          refine ⟨?_, g, List.mem_cons_of_mem _ hg, hOn⟩
          rw [containsHoleLoop, hc]
          simpa using h1
      · simp only [Option.some_bind, if_true] at hd
        right
        refine ⟨?_, h, List.mem_cons_self h t, onRing_of_distance_zero hd⟩
        rw [containsHoleLoop, hc]
        rfl

/-! ## Lemmas: the shoelace sum changes sign under ring reversal -/

/-- The cross product term of one directed edge. -/
def cross (a b : Point) : ℚ := a.1 * b.2 - b.1 * a.2

/-- Sum of `cross` over the consecutive (directed) edges of a list. -/
def edgeSum : List Point → ℚ
  | a :: rest@(b :: _) => cross a b + edgeSum rest
  | [] => 0
  | [_] => 0

/-- The closing cross term from the last element back to `y`, `0` for an
empty list. -/
def lastCross (l : List Point) (y : Point) : ℚ :=
  match l.getLast? with
  | none => 0
  | some w => cross w y

theorem edgeSum_concat : ∀ (l : List Point) (y : Point),
    edgeSum (l ++ [y]) = edgeSum l + lastCross l y := by
  intro l
  induction l with
  | nil => intro y; simp [edgeSum, lastCross]
  | cons a t ih =>
    intro y
    cases t with
    | nil => simp [edgeSum, lastCross, cross]
    | cons b t2 =>
      rw [List.cons_append, List.cons_append]
      rw [edgeSum]
      rw [← List.cons_append, ih y]
      have h1 : lastCross (a :: b :: t2) y = lastCross (b :: t2) y := by
        rw [lastCross, lastCross, List.getLast?_cons_cons]
      rw [edgeSum, h1]
      ring

theorem edgeSum_reverse : ∀ l : List Point, edgeSum l.reverse = -edgeSum l := by
  intro l
  induction l with
  | nil => simp [edgeSum]
  | cons a t ih =>
    rw [List.reverse_cons, edgeSum_concat, ih]
    cases t with
    | nil => simp [edgeSum, lastCross]
    | cons b t2 =>
      rw [edgeSum]
      have : lastCross (b :: t2).reverse a = cross b a := by
        rw [lastCross, List.getLast?_reverse, List.head?_cons]
      rw [this, cross, cross]
      ring

theorem lastTwo_concat_pair (x y : Point) : ∀ l : List Point,
    lastTwo (l ++ [x, y]) = (x, y) := by
  intro l
  induction l with
  | nil => simp [lastTwo]
  | cons a t ih =>
    cases t with
    | nil => simp [lastTwo]
    | cons b t2 =>
      have h3 : ∃ c r, t2 ++ [x, y] = c :: r := by
        cases t2 with
        | nil => exact ⟨x, [y], rfl⟩
        | cons u v => exact ⟨u, v ++ [x, y], by simp⟩
      obtain ⟨c, r, hc⟩ := h3
      have e1 : (a :: b :: t2) ++ [x, y] = a :: b :: c :: r := by
        rw [List.cons_append, List.cons_append, hc]
      have e2 : lastTwo (a :: b :: c :: r) = lastTwo (b :: c :: r) := by
        simp only [lastTwo]
      have e3 : (b :: t2) ++ [x, y] = b :: c :: r := by
        rw [List.cons_append, hc]
      rw [e1, e2, ← e3, ih]

theorem lastTwo_reverse (a b : Point) (t : List Point) :
    lastTwo ((a :: b :: t).reverse) = (b, a) := by
  rw [List.reverse_cons, List.reverse_cons, List.append_assoc]
  exact lastTwo_concat_pair b a t.reverse

theorem lastTwo_snd : ∀ (t : List Point) (a b : Point),
    some (lastTwo (a :: b :: t)).2 = (a :: b :: t).getLast? := by
  intro t
  induction t with
  | nil => intro a b; simp [lastTwo]
  | cons c t2 ih =>
    intro a b
    have e2 : lastTwo (a :: b :: c :: t2) = lastTwo (b :: c :: t2) := by
      simp only [lastTwo]
    rw [e2, List.getLast?_cons_cons]
    exact ih b c

theorem ringSigned_eq : ∀ (t : List Point) (a b : Point),
    ringSigned (a :: b :: t) = edgeSum (a :: b :: t) + cross (lastTwo (a :: b :: t)).2 a := by
  intro t
  induction t with
  | nil =>
    intro a b
    simp only [ringSigned, lastTwo, shoeSum, edgeSum, cross]
    ring
  | cons c t2 ih =>
    intro a b
    have hlt : lastTwo (a :: b :: c :: t2) = lastTwo (b :: c :: t2) := by
      simp only [lastTwo]
    have ih' := ih b c
    rw [ringSigned] at ih'
    rw [ringSigned, shoeSum, hlt, edgeSum]
    simp only [cross] at ih' ⊢
    linear_combination ih'

theorem ringSigned_reverse : ∀ ls : List Point, ringSigned ls.reverse = -ringSigned ls := by
  intro ls
  match ls with
  | [] => simp [ringSigned]
  | [x] => simp [ringSigned]
  | a :: b :: t =>
    obtain ⟨x, y, t', hxy⟩ : ∃ x y t', (a :: b :: t).reverse = x :: y :: t' := by
      have hlen : 2 ≤ (a :: b :: t).reverse.length := by
        rw [List.length_reverse]; simp
      match hrev : (a :: b :: t).reverse with
      | [] => rw [hrev] at hlen; simp at hlen
      | [z] => rw [hrev] at hlen; simp at hlen
      | x :: y :: t' => exact ⟨x, y, t', rfl⟩
    have hx : x = (lastTwo (a :: b :: t)).2 := by
      have h1 : (a :: b :: t).reverse.head? = some x := by rw [hxy]; rfl
      rw [List.head?_reverse] at h1
      rw [← lastTwo_snd] at h1
      exact (Option.some_inj.mp h1).symm
    have hlt : lastTwo (x :: y :: t') = (b, a) := by
      rw [← hxy]; exact lastTwo_reverse a b t
    rw [hxy, ringSigned_eq t' x y, hlt]
    rw [← hxy, edgeSum_reverse, ringSigned_eq t a b, ← hx]
    simp only [cross]
    ring

theorem lineStringArea_reverse (ls : LineString) :
    lineStringArea ls.reverse = lineStringArea ls := by
  match ls with
  | [] => rfl
  | [x] => rfl
  | a :: b :: t =>
    obtain ⟨x, y, t', hxy⟩ : ∃ x y t', (a :: b :: t).reverse = x :: y :: t' := by
      have hlen : 2 ≤ (a :: b :: t).reverse.length := by
        rw [List.length_reverse]; simp
      match hrev : (a :: b :: t).reverse with
      | [] => rw [hrev] at hlen; simp at hlen
      | [z] => rw [hrev] at hlen; simp at hlen
      | x :: y :: t' => exact ⟨x, y, t', rfl⟩
    rw [hxy, lineStringArea, lineStringArea, ← hxy, ringSigned_reverse, abs_neg]

/-! ## Lemmas: the polygon area fold -/

/-- The total (absolute) ring area of a list of hole rings, `none` as soon
as one ring area faults. -/
def holesAreaSum : List LineString → Option ℚ
  | [] => some 0
  | r :: t =>
    (lineStringArea r).bind fun a =>
      (holesAreaSum t).bind fun s => some (a + s)

theorem areaHoleLoop_eq : ∀ (holes : List LineString) (acc : ℚ),
    areaHoleLoop acc holes = (holesAreaSum holes).bind fun s => some (acc - s) := by
  intro holes
  induction holes with
  | nil => intro acc; simp [areaHoleLoop, holesAreaSum]
  | cons r t ih =>
    intro acc
    rw [areaHoleLoop, holesAreaSum]
    cases lineStringArea r with
    | none => rfl
    | some a =>
      simp only [Option.some_bind, Option.bind_assoc]
      rw [ih (acc - a)]
      cases holesAreaSum t with
      | none => rfl
      | some s => simp only [Option.some_bind, Option.some_inj]; ring_nf

theorem areaHoleLoop_reverse_ring : ∀ (xs ys : List LineString) (r : LineString) (acc : ℚ),
    areaHoleLoop acc (xs ++ r.reverse :: ys) = areaHoleLoop acc (xs ++ r :: ys) := by
  intro xs
  induction xs with
  | nil =>
    intro ys r acc
    simp only [List.nil_append]
    rw [areaHoleLoop, areaHoleLoop, lineStringArea_reverse]
  | cons h t ih =>
    intro ys r acc
    simp only [List.cons_append]
    rw [areaHoleLoop, areaHoleLoop]
    cases lineStringArea h with
    | none => rfl
    | some a => simp only [Option.some_bind]; exact ih ys r (acc - a)

theorem lineStringArea_nonneg {ls : LineString} {a : ℚ}
    (h : lineStringArea ls = some a) : 0 ≤ a := by
  match ls with
  | [] =>
    rw [lineStringArea, Option.some_inj] at h
    rw [← h]
  | [x] => simp [lineStringArea] at h
  | x :: y :: t =>
    rw [lineStringArea, Option.some_inj] at h
    rw [← h]
    positivity

/-! ## Claim theorems -/

/-- C1: the claim says `CentroidArea` combines rings by
`(outerArea·outerCentroid − Σ holeArea_i·holeCentroid_i) / (outerArea − Σ holeArea_i)`.
The code instead multiplies the already area-weighted hole-centroid sum by
the total hole area a second time.  On the 4×4 square with a centred 2×2
hole the ring data is exactly `((2,2),16)` and `((2,2),4)`, the claimed
formula gives `(16·2 − 4·2)/(16 − 4) = 2` per axis, i.e. centroid `(2,2)`,
but the code returns centroid `(0,0)` (area 12 as claimed). -/
theorem c1_centroid_hole_combination_bug :
    LineString.ringCentroid [(0,0),(4,0),(4,4),(0,4),(0,0)] = some ((2,2), 16)
    ∧ LineString.ringCentroid [(1,1),(3,1),(3,3),(1,3),(1,1)] = some ((2,2), 4)
    ∧ Polygon.CentroidArea [[(0,0),(4,0),(4,4),(0,4),(0,0)], [(1,1),(3,1),(3,3),(1,3),(1,1)]]
        = some ((0, 0), 12)
    ∧ ((16 * 2 - 4 * 2) / (16 - 4) : ℚ) = 2 := by
  refine ⟨?_, ?_, ?_, by norm_num⟩ <;>
    norm_num [Polygon.CentroidArea, LineString.ringCentroid, centroidHoleLoop, centLoop]

/-- C2: for the zero-ring polygon, `WKT` does return `"EMPTY"`, but `Area`
and `Contains` read `p[0]` and fault (index out of range), instead of
returning `0` and `false` as the claim states. -/
theorem c2_empty_polygon :
    Polygon.WKT [] = "EMPTY" ∧ Polygon.Area [] = none ∧
      ∀ pt : Point, Polygon.Contains [] pt = none :=
  ⟨rfl, rfl, fun _ => rfl⟩

/-- C3, counterexample: on the 4×4 square with the 2×2 hole, the point
`(1,2)` lies on the hole's boundary: `DistanceFrom` returns `0` (the point
is inside the closed hole and at distance `0` from the hole ring) while
`Contains` returns `false`, so `DistanceFrom = 0 ↔ Contains` fails. -/
theorem c3_distance_contains_counterexample :
    Polygon.DistanceFrom [[(0,0),(4,0),(4,4),(0,4),(0,0)], [(1,1),(3,1),(3,3),(1,3),(1,1)]]
        (1, 2) = some 0
    ∧ Polygon.Contains [[(0,0),(4,0),(4,4),(0,4),(0,0)], [(1,1),(3,1),(3,3),(1,3),(1,1)]]
        (1, 2) = some false := by
  constructor <;>
    norm_num [Polygon.DistanceFrom, Polygon.Contains, lineStringContains, containsHoleLoop,
      containsLoop, rayIntersect, rayIntersectCore, rayTail, slopes, xLt, xGt, ringBound,
      rectContains, List.getLast, distHoleLoop, LineString.DistanceFrom, segMin, segDistSq]

/-- C3, amended: for every non-empty polygon, `Contains = true` implies
`DistanceFrom = 0`, and `DistanceFrom = 0` implies `Contains = true` or
the query point lies exactly on the boundary of one of the hole rings. -/
theorem c3_distance_zero_iff_contains_amended (r0 : LineString) (holes : List LineString)
    (pt : Point) :
    (Polygon.Contains (r0 :: holes) pt = some true →
      Polygon.DistanceFrom (r0 :: holes) pt = some 0)
    ∧ (Polygon.DistanceFrom (r0 :: holes) pt = some 0 →
      Polygon.Contains (r0 :: holes) pt = some true ∨ ∃ h ∈ holes, OnRing h pt) := by
  constructor
  · intro hC
    rw [Polygon.Contains] at hC
    cases hc : lineStringContains r0 pt with
    | none => rw [hc] at hC; simp at hC
    | some c =>
      rw [hc] at hC
      cases c
      · simp at hC
      · simp only [Option.some_bind, Bool.not_true, Bool.false_eq_true, if_false] at hC
        rw [Polygon.DistanceFrom, contains_single, hc]
        simp only [Option.some_bind, Bool.not_true, Bool.false_eq_true, if_false]
        exact distHoleLoop_of_not_contains ((containsHoleLoop_eq_some hC).mp rfl)
  · intro hD
    rw [Polygon.DistanceFrom, contains_single] at hD
    cases hc : lineStringContains r0 pt with
    | none => rw [hc] at hD; simp at hD
    | some c =>
      rw [hc] at hD
      cases c
      · exfalso
        simp only [Option.some_bind, Bool.not_false, if_true] at hD
        obtain ⟨s, e, hm, hon⟩ := onRing_of_distance_zero hD
        have htrue := contains_of_onEdge (Or.inl hm) hon
        rw [hc] at htrue
        simp at htrue
      · simp only [Option.some_bind, Bool.not_true, Bool.false_eq_true, if_false] at hD
        rcases distHoleLoop_zero hD with h1 | ⟨-, hEx⟩
        · left
          rw [Polygon.Contains, hc]
          simpa using h1
        · right
          exact hEx

/-- C3, witness for the amended theorem at a concrete input: the unit
square contains `(1/2, 1/2)`, so the distance is `0`. -/
theorem c3_distance_zero_iff_contains_witness :
    Polygon.DistanceFrom [[(0,0),(1,0),(1,1),(0,1),(0,0)]] (1/2, 1/2) = some 0 :=
  (c3_distance_zero_iff_contains_amended [(0,0),(1,0),(1,1),(0,1),(0,0)] [] (1/2, 1/2)).1
    (by norm_num [Polygon.Contains, lineStringContains, containsHoleLoop, containsLoop,
      rayIntersect, rayIntersectCore, rayTail, slopes, xLt, xGt, ringBound, rectContains,
      List.getLast])

/-- C4: for every non-empty polygon, `Contains` returns `true` exactly when
the outer ring contains the point (boundary inclusive) and no hole ring
contains it (boundary inclusive); in particular a point exactly on a hole's
boundary yields `false`. -/
theorem c4_contains_outer_and_not_holes (r0 : LineString) (holes : List LineString)
    (pt : Point) (b : Bool) (hb : Polygon.Contains (r0 :: holes) pt = some b) :
    (b = true ↔ lineStringContains r0 pt = some true ∧
        ∀ h ∈ holes, lineStringContains h pt = some false)
    ∧ (∀ h ∈ holes, OnRing h pt → b = false) := by
  rw [Polygon.Contains] at hb
  cases hc : lineStringContains r0 pt with
  | none => rw [hc] at hb; simp at hb
  | some c =>
    rw [hc] at hb
    cases c
    · simp only [Option.some_bind, Bool.not_false, if_true, Option.some_inj] at hb
      subst hb
      constructor
      · simp [hc]
      · intro h hh hOn; rfl
    · simp only [Option.some_bind, Bool.not_true, Bool.false_eq_true, if_false] at hb
      have hiff := containsHoleLoop_eq_some hb
      constructor
      · rw [hiff]; simp
      · intro h hh hOn
        obtain ⟨s, e, hm, hon⟩ := hOn
        have htrue := contains_of_onEdge (Or.inl hm) hon
        by_contra hbt
        simp only [Bool.not_eq_false] at hbt
        have := hiff.mp hbt h hh
        rw [htrue] at this
        simp at this

/-- C4, witness at a concrete input: the centre `(2,2)` of the hole of the
4×4 square with a 2×2 hole, where `Contains` returns `false`. -/
theorem c4_contains_outer_and_not_holes_witness :
    ((false = true) ↔
        lineStringContains [(0,0),(4,0),(4,4),(0,4),(0,0)] ((2:ℚ), (2:ℚ)) = some true ∧
        ∀ h ∈ [[(1,1),(3,1),(3,3),(1,3),(1,1)]],
          lineStringContains h ((2:ℚ), (2:ℚ)) = some false)
    ∧ (∀ h ∈ [[(1,1),(3,1),(3,3),(1,3),(1,1)]], OnRing h ((2:ℚ), (2:ℚ)) → false = false) :=
  c4_contains_outer_and_not_holes [(0,0),(4,0),(4,4),(0,4),(0,0)]
    [[(1,1),(3,1),(3,3),(1,3),(1,1)]] ((2:ℚ), (2:ℚ)) false
    (by norm_num [Polygon.Contains, lineStringContains, containsHoleLoop, containsLoop,
      rayIntersect, rayIntersectCore, rayTail, slopes, xLt, xGt, ringBound, rectContains,
      List.getLast])

/-- C5: a query point with the x-coordinate of a vertical edge of the ring
and a y-coordinate within that edge's y-extremes (inclusive) is reported as
on the boundary by `rayIntersect` and therefore contained by the
point-in-ring predicate. -/
theorem c5_vertical_edge_on_boundary (ls : LineString) (s e pt : Point)
    (hedge : IsEdge ls s e) (hv : s.1 = e.1) (hx : pt.1 = s.1)
    (hy1 : min s.2 e.2 ≤ pt.2) (hy2 : pt.2 ≤ max s.2 e.2) :
    (rayIntersect pt s e).2 = true ∧ lineStringContains ls pt = some true := by
  have hon : onSeg s e pt := by
    refine ⟨?_, ?_, ?_, hy1, hy2⟩
    · rw [hx, ← hv]; ring
    · have h : min s.1 e.1 = pt.1 := by rw [← hv, min_self, hx]
      exact h.le
    · have h : max s.1 e.1 = pt.1 := by rw [← hv, max_self, hx]
      exact h.ge
  exact ⟨ray_on hon, contains_of_onEdge hedge hon⟩

/-- C5, witness: the vertical edge `(1,0)-(1,1)` of the unit square and the
query point `(1, 1/2)` on it. -/
theorem c5_vertical_edge_on_boundary_witness :
    (rayIntersect ((1:ℚ), (1:ℚ)/2) (1, 0) (1, 1)).2 = true
    ∧ lineStringContains [(0,0),(1,0),(1,1),(0,1),(0,0)] ((1:ℚ), (1:ℚ)/2) = some true :=
  c5_vertical_edge_on_boundary [(0,0),(1,0),(1,1),(0,1),(0,0)] (1, 0) (1, 1)
    ((1:ℚ), (1:ℚ)/2)
    (Or.inl (by norm_num)) (by norm_num) (by norm_num) (by norm_num) (by norm_num)

/-- C6, counterexample: a polygon whose hole ring is larger than its outer
ring has `Area = 1 - 100 = -99 < 0`, so `Area` is not always non-negative. -/
theorem c6_area_nonneg_counterexample :
    Polygon.Area [[(0,0),(1,0),(1,1),(0,1),(0,0)], [(0,0),(10,0),(10,10),(0,10),(0,0)]]
      = some (-99) ∧ ¬ (0:ℚ) ≤ -99 := by
  constructor
  · norm_num [Polygon.Area, lineStringArea, areaHoleLoop, ringSigned, shoeSum, lastTwo]
  · norm_num

/-- C6, amended: `Area` returns the outer ring's absolute area minus the
total absolute area of the hole rings, so it is non-negative whenever the
holes' total area does not exceed the outer area — in particular for every
hole-free polygon. -/
theorem c6_area_nonneg_amended (r0 : LineString) (holes : List LineString) (a0 hs : ℚ)
    (h0 : lineStringArea r0 = some a0) (h1 : holesAreaSum holes = some hs) (hle : hs ≤ a0) :
    Polygon.Area (r0 :: holes) = some (a0 - hs) ∧ 0 ≤ a0 - hs := by
  constructor
  · rw [Polygon.Area, h0]
    simp only [Option.some_bind]
    rw [areaHoleLoop_eq, h1]
    rfl
  · linarith

/-- C6, witness: the 4×4 square with the 2×2 hole has `Area = 16 - 4 ≥ 0`. -/
theorem c6_area_nonneg_witness :
    Polygon.Area [[(0,0),(4,0),(4,4),(0,4),(0,0)], [(1,1),(3,1),(3,3),(1,3),(1,1)]]
      = some (16 - 4) ∧ (0:ℚ) ≤ 16 - 4 :=
  c6_area_nonneg_amended [(0,0),(4,0),(4,4),(0,4),(0,0)] [[(1,1),(3,1),(3,3),(1,3),(1,1)]] 16 4
    (by norm_num [lineStringArea, ringSigned, shoeSum, lastTwo])
    (by norm_num [holesAreaSum, lineStringArea, ringSigned, shoeSum, lastTwo])
    (by norm_num)

/-- C7: `Area` is unchanged when any one ring of the polygon is replaced by
its reversal (winding direction does not affect the magnitude): the signed
shoelace sum changes sign and the absolute value absorbs it, ring by ring. -/
theorem c7_area_reverse_invariant (l1 l2 : List LineString) (r : LineString) :
    Polygon.Area (l1 ++ r.reverse :: l2) = Polygon.Area (l1 ++ r :: l2) := by
  cases l1 with
  | nil =>
    simp only [List.nil_append]
    rw [Polygon.Area, Polygon.Area, lineStringArea_reverse]
  | cons h t =>
    simp only [List.cons_append]
    rw [Polygon.Area, Polygon.Area]
    cases lineStringArea h with
    | none => rfl
    | some a =>
      simp only [Option.some_bind]
      exact areaHoleLoop_reverse_ring t l2 r a

/-- C8: the claim says every empty or degenerate ring yields area `0`
without a fault, in particular rings of zero, one or two points.  Rings of
zero or two points (and a three-point ring collapsed to a line) do return
`0`, but a one-point ring reads index `-1` (`ls[last-1]` with `last = 0`)
and faults. -/
theorem c8_degenerate_ring_area :
    lineStringArea [] = some 0
    ∧ lineStringArea [((0:ℚ), (0:ℚ))] = none
    ∧ lineStringArea [((0:ℚ), (0:ℚ)), ((2:ℚ), (3:ℚ))] = some 0
    ∧ lineStringArea [((0:ℚ), (0:ℚ)), ((2:ℚ), (3:ℚ)), ((0:ℚ), (0:ℚ))] = some 0 := by
  refine ⟨rfl, rfl, ?_, ?_⟩ <;>
    norm_num [lineStringArea, ringSigned, shoeSum, lastTwo]

/-- C10: the clockwise unit square is a hole-free polygon on which
`CentroidArea` returns the winding-signed shoelace area `-1 < 0`, while
`Area` returns the absolute value `1`. -/
theorem c10_centroid_signed_area :
    Polygon.CentroidArea [[(0,0),(0,1),(1,1),(1,0),(0,0)]] = some ((1/2, 1/2), -1)
    ∧ Polygon.Area [[(0,0),(0,1),(1,1),(1,0),(0,0)]] = some 1
    ∧ (-1 : ℚ) < 0 := by
  refine ⟨?_, ?_, by norm_num⟩
  · norm_num [Polygon.CentroidArea, LineString.ringCentroid, centroidHoleLoop, centLoop]
  · norm_num [Polygon.Area, lineStringArea, areaHoleLoop, ringSigned, shoeSum, lastTwo]
